import Mathlib

/-!
Verification of the project-analysis demo (`code_example.py`): the duration
estimator, the single-pass Gantt scheduler with its dependency scan, and the
document-completeness scorer.

Numbers (quantities, labor rates, durations) are embedded as rationals, and
dates as rational day counts (a `datetime` becomes its proleptic-Gregorian
day number, a `timedelta` a difference of such numbers).  `None` dates are
`Option.none`.  The Python scheduler mutates its list in place; here each
loop iteration becomes a function from the list state to the next list state,
folded over the item indices in input order.
-/

/-- The `ConstructionWork` dataclass: one work item of the schedule. -/
structure ConstructionWork where
  name : String
  unit : String
  amount : ℚ
  man_hours_per_unit : ℚ
  dependencies : List String
  start_date : Option ℚ := none
  end_date : Option ℚ := none
deriving DecidableEq, Repr

/-- The `ProjectAnalyzer` configuration: crew size and workday hours. -/
structure ProjectAnalyzer where
  workers_count : ℚ := 2
  workday_hours : ℚ := 8
deriving DecidableEq, Repr

/-- `ProjectAnalyzer.calculate_duration`: labor hours over daily crew capacity. -/
def ProjectAnalyzer.calculate_duration (self : ProjectAnalyzer)
    (work : ConstructionWork) : ℚ :=
  let total_hours := work.man_hours_per_unit * work.amount
  total_hours / (self.workday_hours * self.workers_count)

/-- One step of the inner dependency scan (`for dep_work in works:` body):
if the scanned item's name matches the dependency name and its end date is
set, raise the accumulator to that end date. -/
def depFold (dep_name : String) (acc : ℚ) (dep_work : ConstructionWork) : ℚ :=
  if dep_work.name = dep_name then
    match dep_work.end_date with
    | some e => max acc e
    | none => acc
  else acc

/-- The full dependency scan of `create_gantt_chart` (lines 85-89): for each
dependency name, scan the whole collection and keep the maximum end date seen,
starting from the tentative value `acc` (the project start). -/
def maxDepEnd (works : List ConstructionWork) (deps : List String) (acc : ℚ) : ℚ :=
  deps.foldl (fun a dep_name => works.foldl (depFold dep_name) a) acc

/-- One iteration of the `for work in works:` loop of `create_gantt_chart`,
acting on the item at index `i` of the current list state: set tentative
start/end from the project start, then, if the dependency list is non-empty,
re-base the item on the latest visible dependency end date. -/
def processItem (self : ProjectAnalyzer) (start_date : ℚ)
    (works : List ConstructionWork) (i : Nat) : List ConstructionWork :=
  match works[i]? with
  | none => works
  | some work =>
    let work_duration := self.calculate_duration work
    let tentative := { work with start_date := some start_date,
                                 end_date := some (start_date + work_duration) }
    let works1 := works.set i tentative
    if tentative.dependencies.isEmpty then works1
    else
      let max_end_date := maxDepEnd works1 tentative.dependencies start_date
      works1.set i { tentative with start_date := some max_end_date,
                                    end_date := some (max_end_date + work_duration) }

/-- The first `k` iterations of the scheduling loop (items `0..k-1` in input
order). -/
def scheduleUpto (self : ProjectAnalyzer) (start_date : ℚ)
    (works : List ConstructionWork) (k : Nat) : List ConstructionWork :=
  (List.range k).foldl (processItem self start_date) works

/-- The scheduling pass of `ProjectAnalyzer.create_gantt_chart` (lines 77-92):
a single forward pass over the items in input order.  (The DataFrame built
afterwards is a read-only projection; the claims concern the dates written
into the items.) -/
def ProjectAnalyzer.create_gantt_chart (self : ProjectAnalyzer)
    (works : List ConstructionWork) (start_date : ℚ) : List ConstructionWork :=
  scheduleUpto self start_date works works.length

/-- The fixed criterion catalog of `analyze_project_completeness`:
key, document label, weight — in the source's insertion order. -/
def criteria : List (String × String × ℚ) :=
  [("has_technical_task", ("Техническое задание", 1)),
   ("has_estimate", ("Смета с трудозатратами", 2)),
   ("has_schedule", ("График работ", 1)),
   ("has_visual_plans", ("Визуальные планы", 1/2))]

/-- `files_info.get(criterion, False)`: look a key up in the flags mapping,
defaulting to `false` when the key is absent. -/
def dictGet (files_info : List (String × Bool)) (key : String) : Bool :=
  match files_info.find? (fun p => p.1 == key) with
  | some p => p.2
  | none => false

/-- `ProjectAnalyzer._generate_recommendations`: one fixed remediation line
per recognized missing label, in the source's fixed order; the visual-plans
label has no mapped line. -/
def generate_recommendations (missing_docs : List String) : List String :=
  (if missing_docs.contains "Техническое задание" then
    ["Запросить ТЗ у заказчика или найти аналогичный проект"] else []) ++
  (if missing_docs.contains "Смета с трудозатратами" then
    ["Использовать средние трудозатраты по аналогичным работам"] else []) ++
  (if missing_docs.contains "График работ" then
    ["Восстановить график из сметы через расчёт трудозатрат"] else [])

/-- The result dictionary of `analyze_project_completeness`. -/
structure CompletenessResult where
  completeness_percent : ℚ
  missing_documents : List String
  recommendations : List String
deriving DecidableEq, Repr

/-- `ProjectAnalyzer.analyze_project_completeness` (lines 109-136): walk the
criterion catalog in order, add the weight of each present document to the
score, collect the labels of the absent ones, and report the score against
the hardcoded `max_score = 4`. -/
def analyze_project_completeness (files_info : List (String × Bool)) :
    CompletenessResult :=
  let max_score : ℚ := 4
  let step := criteria.foldl
    (fun (acc : ℚ × List String) c =>
      if dictGet files_info c.1 then (acc.1 + c.2.2, acc.2)
      else (acc.1, acc.2 ++ [c.2.1]))
    (0, [])
  { completeness_percent := (step.1 / max_score) * 100,
    missing_documents := step.2,
    recommendations := generate_recommendations step.2 }

/-- Day number of a proleptic-Gregorian civil date (days since 1970-01-01),
matching Python `datetime` ordinal arithmetic up to a constant offset. -/
def civil_to_days (y m d : Int) : Int :=
  let y2 := if m ≤ 2 then y - 1 else y
  let era := (if 0 ≤ y2 then y2 else y2 - 399) / 400
  let yoe := y2 - era * 400
  let mp := (m + 9) % 12
  let doy := (153 * mp + 2) / 5 + d - 1
  let doe := yoe * 365 + yoe / 4 - yoe / 100 + doy
  era * 146097 + doe - 719468

/-- The "Pavement" sample item of the demo (amount 500 м², 2.4 man-hours per
unit, no dependencies). -/
def pavement : ConstructionWork :=
  { name := "Устройство асфальтового покрытия", unit := "м2",
    amount := 500, man_hours_per_unit := 12/5, dependencies := [] }

/-- The "Benches" sample item of the demo: it depends on "Подготовка
территории" ("site preparation"), a name absent from the demo's item list. -/
def benches : ConstructionWork :=
  { name := "Установка скамеек", unit := "шт",
    amount := 15, man_hours_per_unit := 20,
    dependencies := ["Подготовка территории"] }

/-- A site-preparation item bearing the name that `benches` depends on,
used to exercise the resolved-dependency path. -/
def site_prep : ConstructionWork :=
  { name := "Подготовка территории", unit := "м2",
    amount := 100, man_hours_per_unit := 4, dependencies := [] }

/-- A lighting item that lists its own name as a dependency, used to
exercise the self-dependency path of the scan. -/
def lighting_loop : ConstructionWork :=
  { name := "Монтаж освещения", unit := "шт",
    amount := 20, man_hours_per_unit := 12,
    dependencies := ["Монтаж освещения"] }

/-! ### Helper lemmas about the scheduling pass -/

/-- The five fields of a work item the scheduler never writes. -/
def core (w : ConstructionWork) : String × String × ℚ × ℚ × List String :=
  (w.name, w.unit, w.amount, w.man_hours_per_unit, w.dependencies)

theorem calculate_duration_core (a : ProjectAnalyzer) {w1 w2 : ConstructionWork}
    (h : core w1 = core w2) :
    a.calculate_duration w1 = a.calculate_duration w2 := by
  cases w1; cases w2
  simp only [core, Prod.mk.injEq] at h
  simp [ProjectAnalyzer.calculate_duration, h.2.2.1, h.2.2.2.1]

theorem name_eq_of_core_eq {w1 w2 : ConstructionWork} (h : core w1 = core w2) :
    w1.name = w2.name := by
  cases w1; cases w2
  simp only [core, Prod.mk.injEq] at h
  exact h.1

theorem processItem_none (a : ProjectAnalyzer) (s : ℚ)
    {works : List ConstructionWork} {i : Nat} (hw : works[i]? = none) :
    processItem a s works i = works := by
  unfold processItem; rw [hw]

theorem deps_eq_of_core_eq {w1 w2 : ConstructionWork} (h : core w1 = core w2) :
    w1.dependencies = w2.dependencies := by
  cases w1; cases w2
  simp only [core, Prod.mk.injEq] at h
  exact h.2.2.2.2

theorem processItem_length (a : ProjectAnalyzer) (s : ℚ)
    (works : List ConstructionWork) (i : Nat) :
    (processItem a s works i).length = works.length := by
  unfold processItem
  cases works[i]? with
  | none => rfl
  | some w => dsimp only; split <;> simp

theorem processItem_getElem?_ne (a : ProjectAnalyzer) (s : ℚ)
    (works : List ConstructionWork) {i j : Nat} (h : i ≠ j) :
    (processItem a s works i)[j]? = works[j]? := by
  unfold processItem
  cases works[i]? with
  | none => rfl
  | some w =>
    dsimp only
    split
    · exact List.getElem?_set_ne h
    · rw [List.getElem?_set_ne h, List.getElem?_set_ne h]

theorem processItem_getElem?_self_nil (a : ProjectAnalyzer) (s : ℚ)
    {works : List ConstructionWork} {i : Nat} {w : ConstructionWork}
    (hw : works[i]? = some w) (hd : w.dependencies = []) :
    (processItem a s works i)[i]? =
      some { w with start_date := some s,
                    end_date := some (s + a.calculate_duration w) } := by
  have hlen : i < works.length := (List.getElem?_eq_some_iff.1 hw).1
  unfold processItem
  rw [hw]
  dsimp only
  rw [if_pos (by simp [hd])]
  exact List.getElem?_set_self hlen

theorem processItem_getElem?_self_deps (a : ProjectAnalyzer) (s : ℚ)
    {works : List ConstructionWork} {i : Nat} {w : ConstructionWork}
    (hw : works[i]? = some w) (hd : w.dependencies ≠ []) :
    (processItem a s works i)[i]? =
      some { w with
        start_date := some (maxDepEnd
          (works.set i { w with start_date := some s,
                                end_date := some (s + a.calculate_duration w) })
          w.dependencies s),
        end_date := some (maxDepEnd
          (works.set i { w with start_date := some s,
                                end_date := some (s + a.calculate_duration w) })
          w.dependencies s + a.calculate_duration w) } := by
  have hlen : i < works.length := (List.getElem?_eq_some_iff.1 hw).1
  unfold processItem
  rw [hw]
  dsimp only
  rw [if_neg (by simpa using hd)]
  exact List.getElem?_set_self (by simpa using hlen)

theorem processItem_core (a : ProjectAnalyzer) (s : ℚ)
    (works : List ConstructionWork) (i j : Nat) :
    ((processItem a s works i)[j]?).map core = (works[j]?).map core := by
  rcases Nat.decEq i j with h | h
  · rw [processItem_getElem?_ne a s works h]
  · subst h
    cases hw : works[i]? with
    | none =>
      rw [processItem_none a s hw, hw]
    | some w =>
      rcases Classical.em (w.dependencies = []) with hd | hd
      · rw [processItem_getElem?_self_nil a s hw hd]; rfl
      · rw [processItem_getElem?_self_deps a s hw hd]; rfl

theorem scheduleUpto_succ (a : ProjectAnalyzer) (s : ℚ)
    (works : List ConstructionWork) (k : Nat) :
    scheduleUpto a s works (k + 1) =
      processItem a s (scheduleUpto a s works k) k := by
  unfold scheduleUpto
  rw [List.range_succ, List.foldl_append]
  rfl

theorem scheduleUpto_length (a : ProjectAnalyzer) (s : ℚ)
    (works : List ConstructionWork) (k : Nat) :
    (scheduleUpto a s works k).length = works.length := by
  induction k with
  | zero => rfl
  | succ k ih => rw [scheduleUpto_succ, processItem_length, ih]

theorem scheduleUpto_getElem?_of_le (a : ProjectAnalyzer) (s : ℚ)
    (works : List ConstructionWork) {k j : Nat} (h : k ≤ j) :
    (scheduleUpto a s works k)[j]? = works[j]? := by
  induction k with
  | zero => rfl
  | succ k ih =>
    rw [scheduleUpto_succ,
      processItem_getElem?_ne a s _ (Nat.ne_of_lt (Nat.lt_of_lt_of_le (Nat.lt_succ_self k) h))]
    exact ih (Nat.le_of_succ_le h)

theorem scheduleUpto_getElem?_stable (a : ProjectAnalyzer) (s : ℚ)
    (works : List ConstructionWork) {j k : Nat} (h : j < k) :
    (scheduleUpto a s works k)[j]? = (scheduleUpto a s works (j + 1))[j]? := by
  induction k with
  | zero => exact absurd h (Nat.not_lt_zero j)
  | succ k ih =>
    rcases Nat.lt_or_ge j k with hk | hk
    · rw [scheduleUpto_succ, processItem_getElem?_ne a s _ (Nat.ne_of_gt hk)]
      exact ih hk
    · have hjk : j = k := Nat.le_antisymm (Nat.le_of_lt_succ h) hk
      subst hjk
      rfl

theorem scheduleUpto_core (a : ProjectAnalyzer) (s : ℚ)
    (works : List ConstructionWork) (k j : Nat) :
    ((scheduleUpto a s works k)[j]?).map core = (works[j]?).map core := by
  induction k with
  | zero => rfl
  | succ k ih => rw [scheduleUpto_succ, processItem_core, ih]

theorem scheduleUpto_core_of_getElem (a : ProjectAnalyzer) (s : ℚ)
    (works : List ConstructionWork) (k j : Nat) {x : ConstructionWork}
    (hx : (scheduleUpto a s works k)[j]? = some x) :
    ∃ w, works[j]? = some w ∧ core x = core w := by
  have h := scheduleUpto_core a s works k j
  rw [hx] at h
  cases hww : works[j]? with
  | none => rw [hww] at h; cases h
  | some w =>
    rw [hww] at h
    exact ⟨w, rfl, by simpa using h⟩

theorem create_gantt_chart_getElem? (a : ProjectAnalyzer)
    (works : List ConstructionWork) (s : ℚ) {j : Nat} (h : j < works.length) :
    (a.create_gantt_chart works s)[j]? =
      (processItem a s (scheduleUpto a s works j) j)[j]? := by
  unfold ProjectAnalyzer.create_gantt_chart
  rw [scheduleUpto_getElem?_stable a s works h, scheduleUpto_succ]

/-! ### Lemmas about the dependency scan -/

theorem depFold_le (n : String) (acc : ℚ) (w : ConstructionWork) :
    acc ≤ depFold n acc w := by
  unfold depFold
  split
  · cases hE : w.end_date with
    | none => exact le_refl acc
    | some e => exact le_max_left acc e
  · exact le_refl acc

theorem foldl_depFold_le (n : String) (l : List ConstructionWork) :
    ∀ acc : ℚ, acc ≤ l.foldl (depFold n) acc := by
  induction l with
  | nil => intro acc; exact le_refl acc
  | cons w l ih =>
    intro acc
    rw [List.foldl_cons]
    exact le_trans (depFold_le n acc w) (ih _)

theorem le_maxDepEnd (l : List ConstructionWork) (deps : List String) :
    ∀ acc : ℚ, acc ≤ maxDepEnd l deps acc := by
  induction deps with
  | nil => intro acc; exact le_refl acc
  | cons m deps ih =>
    intro acc
    unfold maxDepEnd at ih ⊢
    rw [List.foldl_cons]
    exact le_trans (foldl_depFold_le m l acc) (ih _)

theorem maxDepEnd_cons (l : List ConstructionWork) (m : String)
    (deps : List String) (acc : ℚ) :
    maxDepEnd l (m :: deps) acc = maxDepEnd l deps (l.foldl (depFold m) acc) := rfl

theorem depFold_no_match {n : String} {w : ConstructionWork} (acc : ℚ)
    (h : w.name = n → w.end_date = none) : depFold n acc w = acc := by
  unfold depFold
  split
  · rename_i hn
    rw [h hn]
  · rfl

theorem foldl_depFold_no_match {n : String} {l : List ConstructionWork}
    (h : ∀ w ∈ l, w.name = n → w.end_date = none) :
    ∀ acc : ℚ, l.foldl (depFold n) acc = acc := by
  induction l with
  | nil => intro acc; rfl
  | cons w l ih =>
    intro acc
    rw [List.foldl_cons, depFold_no_match acc (h w (List.mem_cons_self w l))]
    exact ih (fun w' hw' => h w' (List.mem_cons_of_mem w hw')) acc

theorem depFold_fixed {n : String} {e : ℚ} {w : ConstructionWork}
    (h : w.name = n → w.end_date = none ∨ w.end_date = some e) :
    depFold n e w = e := by
  unfold depFold
  split
  · rename_i hn
    rcases h hn with h2 | h2 <;> rw [h2]
    exact max_self e
  · rfl

theorem foldl_depFold_fixed {n : String} {e : ℚ} {l : List ConstructionWork}
    (h : ∀ w ∈ l, w.name = n → w.end_date = none ∨ w.end_date = some e) :
    l.foldl (depFold n) e = e := by
  induction l with
  | nil => rfl
  | cons w l ih =>
    rw [List.foldl_cons, depFold_fixed (h w (List.mem_cons_self w l))]
    exact ih (fun w' hw' => h w' (List.mem_cons_of_mem w hw'))

theorem foldl_depFold_single {n : String} {e : ℚ} (l : List ConstructionWork) :
    ∀ acc : ℚ,
      (∀ w ∈ l, w.name = n → w.end_date = none ∨ w.end_date = some e) →
      (∃ w ∈ l, w.name = n ∧ w.end_date = some e) →
      acc ≤ e →
      l.foldl (depFold n) acc = e := by
  induction l with
  | nil =>
    intro acc h hex hacc
    rcases hex with ⟨w, hw, _⟩
    cases hw
  | cons w l ih =>
    intro acc h hex hacc
    rw [List.foldl_cons]
    rcases Classical.em (w.name = n ∧ w.end_date = some e) with hmatch | hmatch
    · have hstep : depFold n acc w = e := by
        unfold depFold
        rw [if_pos hmatch.1, hmatch.2]
        exact max_eq_right hacc
      rw [hstep]
      exact foldl_depFold_fixed (fun w' hw' => h w' (List.mem_cons_of_mem w hw'))
    · have hstep : depFold n acc w = acc := by
        unfold depFold
        split
        · rename_i hn
          rcases h w (List.mem_cons_self w l) hn with h2 | h2
          · rw [h2]
          · exact absurd ⟨hn, h2⟩ hmatch
        · rfl
      rw [hstep]
      rcases hex with ⟨w', hw', hprop⟩
      rcases List.mem_cons.1 hw' with rfl | hw'tail
      · exact absurd hprop hmatch
      · exact ih acc (fun x hx => h x (List.mem_cons_of_mem w hx))
          ⟨w', hw'tail, hprop⟩ hacc

theorem maxDepEnd_no_match {l : List ConstructionWork} (deps : List String) :
    ∀ acc : ℚ,
      (∀ m ∈ deps, ∀ w ∈ l, w.name = m → w.end_date = none) →
      maxDepEnd l deps acc = acc := by
  induction deps with
  | nil => intro acc _; rfl
  | cons m deps ih =>
    intro acc h
    rw [maxDepEnd_cons,
      foldl_depFold_no_match (h m (List.mem_cons_self m deps)) acc]
    exact ih acc (fun m' hm' => h m' (List.mem_cons_of_mem m hm'))

theorem maxDepEnd_fixed {n : String} {e : ℚ} {l : List ConstructionWork}
    (deps : List String)
    (h : ∀ m ∈ deps, ∀ w ∈ l,
      w.name = m → w.end_date = none ∨ (m = n ∧ w.end_date = some e)) :
    maxDepEnd l deps e = e := by
  induction deps with
  | nil => rfl
  | cons m deps ih =>
    rw [maxDepEnd_cons]
    have hstep : l.foldl (depFold m) e = e := by
      rcases Classical.em (m = n) with rfl | hmn
      · exact foldl_depFold_fixed (fun w hw hname => by
          rcases h m (List.mem_cons_self m deps) w hw hname with h2 | h2
          · exact Or.inl h2
          · exact Or.inr h2.2)
      · exact foldl_depFold_no_match (fun w hw hname => by
          rcases h m (List.mem_cons_self m deps) w hw hname with h2 | h2
          · exact h2
          · exact absurd h2.1 hmn) e
    rw [hstep]
    exact ih (fun m' hm' => h m' (List.mem_cons_of_mem m hm'))

theorem maxDepEnd_single {n : String} {e : ℚ} {l : List ConstructionWork}
    (deps : List String) :
    ∀ acc : ℚ,
      (∀ m ∈ deps, ∀ w ∈ l,
        w.name = m → w.end_date = none ∨ (m = n ∧ w.end_date = some e)) →
      n ∈ deps →
      (∃ w ∈ l, w.name = n ∧ w.end_date = some e) →
      acc ≤ e →
      maxDepEnd l deps acc = e := by
  induction deps with
  | nil => intro acc _ hn _ _; cases hn
  | cons m deps ih =>
    intro acc h hn hex hacc
    rw [maxDepEnd_cons]
    rcases Classical.em (m = n) with rfl | hmn
    · have hstep : l.foldl (depFold m) acc = e :=
        foldl_depFold_single l acc
          (fun w hw hname => by
            rcases h m (List.mem_cons_self m deps) w hw hname with h2 | h2
            · exact Or.inl h2
            · exact Or.inr h2.2)
          hex hacc
      rw [hstep]
      exact maxDepEnd_fixed deps (fun m' hm' => h m' (List.mem_cons_of_mem m hm'))
    · have hstep : l.foldl (depFold m) acc = acc :=
        foldl_depFold_no_match (fun w hw hname => by
          rcases h m (List.mem_cons_self m deps) w hw hname with h2 | h2
          · exact h2
          · exact absurd h2.1 hmn) acc
      rw [hstep]
      have hn' : n ∈ deps := by
        rcases List.mem_cons.1 hn with rfl | hn'
        · exact absurd rfl hmn
        · exact hn'
      exact ih acc (fun m' hm' => h m' (List.mem_cons_of_mem m hm')) hn' hex hacc

/-- Whatever the dependency branch taken, processing item `i` rewrites it to
a record with some start `st ≥` the project start and end `st +` its own
duration, all other fields untouched. -/
theorem processItem_start_end (a : ProjectAnalyzer) (s : ℚ)
    {works : List ConstructionWork} {i : Nat} {w : ConstructionWork}
    (hw : works[i]? = some w) :
    ∃ st, s ≤ st ∧ (processItem a s works i)[i]? =
      some { w with start_date := some st,
                    end_date := some (st + a.calculate_duration w) } := by
  rcases Classical.em (w.dependencies = []) with hd | hd
  · exact ⟨s, le_refl s, processItem_getElem?_self_nil a s hw hd⟩
  · exact ⟨_, le_maxDepEnd _ _ s, processItem_getElem?_self_deps a s hw hd⟩

theorem fields_of_core_eq {w1 w2 : ConstructionWork} (h : core w1 = core w2) :
    w1.name = w2.name ∧ w1.unit = w2.unit ∧ w1.amount = w2.amount ∧
    w1.man_hours_per_unit = w2.man_hours_per_unit ∧
    w1.dependencies = w2.dependencies := by
  cases w1; cases w2
  simpa only [core, Prod.mk.injEq] using h

/-! ### The claims

The `Rat` arithmetic operations are `@[irreducible]` by default; the local
attribute below lets concrete schedules and scores be checked by `decide`
(the kernel unfolds them regardless). -/

section
attribute [local semireducible] Rat.add Rat.sub Rat.mul Rat.inv

/-- Claim C1, as stated, is false on the code: with every catalog key mapped
to true the scorer returns percent 112.5, not 100 — the weights sum to 4.5
but the score is divided by the hardcoded `max_score = 4`. -/
theorem claim_C1_counterexample :
    analyze_project_completeness
      [("has_technical_task", true), ("has_estimate", true),
       ("has_schedule", true), ("has_visual_plans", true)] ≠
      { completeness_percent := 100, missing_documents := [],
        recommendations := [] } := by decide

/-- Claim C1 amended: for the flags mapping in which every catalog key maps
to true, the completeness scorer returns percent exactly 112.5 (= 4.5 / 4 ×
100), an empty missing-documents list, and an empty recommendations list. -/
theorem claim_C1 :
    analyze_project_completeness
      [("has_technical_task", true), ("has_estimate", true),
       ("has_schedule", true), ("has_visual_plans", true)] =
      { completeness_percent := 225/2, missing_documents := [],
        recommendations := [] } := by decide

/-- Claim C6: for the all-false flags mapping and for the empty mapping the
scorer returns percent 0, all four document labels in catalog order, and
exactly the 3 recommendation lines (visual plans has no mapped line). -/
theorem claim_C6 :
    analyze_project_completeness [] =
      { completeness_percent := 0,
        missing_documents := ["Техническое задание", "Смета с трудозатратами",
          "График работ", "Визуальные планы"],
        recommendations := ["Запросить ТЗ у заказчика или найти аналогичный проект",
          "Использовать средние трудозатраты по аналогичным работам",
          "Восстановить график из сметы через расчёт трудозатрат"] } ∧
    analyze_project_completeness
      [("has_technical_task", false), ("has_estimate", false),
       ("has_schedule", false), ("has_visual_plans", false)] =
      { completeness_percent := 0,
        missing_documents := ["Техническое задание", "Смета с трудозатратами",
          "График работ", "Визуальные планы"],
        recommendations := ["Запросить ТЗ у заказчика или найти аналогичный проект",
          "Использовать средние трудозатраты по аналогичным работам",
          "Восстановить график из сметы через расчёт трудозатрат"] } := by
  exact ⟨by decide, by decide⟩

/-- Claim C9: a key absent from the flags mapping is looked up as `false`
(no exception), and appending an explicit `false` entry for an absent key
leaves the scorer's whole result unchanged — absent and false-mapped keys
are treated identically (weight not added, label collected). -/
theorem claim_C9 (m : List (String × Bool)) (k : String)
    (h : m.find? (fun p => p.1 == k) = none) :
    dictGet m k = false ∧
    analyze_project_completeness (m ++ [(k, false)]) =
      analyze_project_completeness m := by
  refine ⟨by unfold dictGet; rw [h], ?_⟩
  have hget : ∀ q, dictGet (m ++ [(k, false)]) q = dictGet m q := by
    intro q
    unfold dictGet
    rw [List.find?_append]
    cases hf : m.find? (fun p => p.1 == q) with
    | some p => rfl
    | none =>
      cases hkq : (k == q) <;> simp [List.find?, hkq]
  unfold analyze_project_completeness
  simp only [criteria, List.foldl_cons, List.foldl_nil, hget]

/-- Claim C9 witness: instantiation at a mapping without "has_schedule". -/
theorem claim_C9_witness :
    (([("has_estimate", true)] : List (String × Bool)).find?
      (fun p => p.1 == "has_schedule") = none) ∧
    dictGet [("has_estimate", true)] "has_schedule" = false ∧
    analyze_project_completeness
        ([("has_estimate", true)] ++ [("has_schedule", false)]) =
      analyze_project_completeness [("has_estimate", true)] :=
  ⟨by decide, (claim_C9 [("has_estimate", true)] "has_schedule" (by decide)).1,
   (claim_C9 [("has_estimate", true)] "has_schedule" (by decide)).2⟩

/-- Claim C4: `calculate_duration` returns (man-hours-per-unit × amount) /
(workday-hours × crew); for the Pavement item (500 × 2.4, crew 2, workday 8)
it returns exactly 75, and scheduling that item from 2024-06-01 ends
exactly on 2024-08-15 (75 days later). -/
theorem claim_C4 :
    (∀ (a : ProjectAnalyzer) (w : ConstructionWork),
      a.calculate_duration w =
        w.man_hours_per_unit * w.amount /
          (a.workday_hours * a.workers_count)) ∧
    ProjectAnalyzer.calculate_duration ⟨2, 8⟩ pavement = 75 ∧
    ProjectAnalyzer.create_gantt_chart ⟨2, 8⟩ [pavement]
        ((civil_to_days 2024 6 1 : ℤ) : ℚ) =
      [{ pavement with start_date := some ((civil_to_days 2024 6 1 : ℤ) : ℚ),
                       end_date := some ((civil_to_days 2024 8 15 : ℤ) : ℚ) }] ∧
    civil_to_days 2024 6 1 + 75 = civil_to_days 2024 8 15 :=
  ⟨fun _ _ => rfl, by decide, by decide, by decide⟩

/-- Claim C5: an item with an empty dependency list is scheduled at the
project start, ending its own duration later. -/
theorem claim_C5 (a : ProjectAnalyzer) (works : List ConstructionWork)
    (s : ℚ) (i : Nat) (w : ConstructionWork)
    (hw : works[i]? = some w) (hdeps : w.dependencies = []) :
    (a.create_gantt_chart works s)[i]? =
      some { w with start_date := some s,
                    end_date := some (s + a.calculate_duration w) } := by
  have hlen : i < works.length := (List.getElem?_eq_some_iff.1 hw).1
  rw [create_gantt_chart_getElem? a works s hlen]
  exact processItem_getElem?_self_nil a s
    (by rw [scheduleUpto_getElem?_of_le a s works (le_refl i)]; exact hw) hdeps

/-- Claim C5 witness: the dependency-free Pavement item scheduled alone. -/
theorem claim_C5_witness :
    (([pavement] : List ConstructionWork)[0]? = some pavement) ∧
    pavement.dependencies = [] ∧
    (ProjectAnalyzer.create_gantt_chart ⟨2, 8⟩ [pavement] 0)[0]? =
      some { pavement with
        start_date := some 0,
        end_date := some (0 + ProjectAnalyzer.calculate_duration ⟨2, 8⟩ pavement) } :=
  ⟨rfl, rfl, claim_C5 ⟨2, 8⟩ [pavement] 0 0 pavement rfl rfl⟩

/-- Claim C7: under positive crew size and workday hours and non-negative
amounts and labor rates, every item ends the run with non-null start and
end dates, the end at least the start, their difference the item's computed
duration. -/
theorem claim_C7 (a : ProjectAnalyzer) (works : List ConstructionWork) (s : ℚ)
    (hwc : 0 < a.workers_count) (hwh : 0 < a.workday_hours)
    (hitems : ∀ w ∈ works, 0 ≤ w.amount ∧ 0 ≤ w.man_hours_per_unit) :
    ∀ (i : Nat) (w : ConstructionWork), works[i]? = some w →
      ∃ st en, (a.create_gantt_chart works s)[i]? =
          some { w with start_date := some st, end_date := some en } ∧
        en - st = a.calculate_duration w ∧ st ≤ en := by
  intro i w hw
  have hlen : i < works.length := (List.getElem?_eq_some_iff.1 hw).1
  have hw' : (scheduleUpto a s works i)[i]? = some w := by
    rw [scheduleUpto_getElem?_of_le a s works (le_refl i)]; exact hw
  rcases processItem_start_end a s hw' with ⟨st, hst, heq⟩
  have hdur : 0 ≤ a.calculate_duration w := by
    have h1 := hitems w (List.mem_iff_getElem?.2 ⟨i, hw⟩)
    show 0 ≤ w.man_hours_per_unit * w.amount /
      (a.workday_hours * a.workers_count)
    exact div_nonneg (mul_nonneg h1.2 h1.1) (le_of_lt (mul_pos hwh hwc))
  refine ⟨st, st + a.calculate_duration w, ?_, by ring, le_add_of_nonneg_right hdur⟩
  rw [create_gantt_chart_getElem? a works s hlen]
  exact heq

/-- Claim C7 witness: the invariant at the Pavement-only run. -/
theorem claim_C7_witness :
    ∃ st en, (ProjectAnalyzer.create_gantt_chart ⟨2, 8⟩ [pavement] 0)[0]? =
        some { pavement with start_date := some st, end_date := some en } ∧
      en - st = ProjectAnalyzer.calculate_duration ⟨2, 8⟩ pavement ∧ st ≤ en :=
  claim_C7 ⟨2, 8⟩ [pavement] 0 (by decide) (by decide) (by decide) 0 pavement rfl

/-- Claim C8: scheduling keeps the item sequence's length and order and
rewrites only the start and end dates: name, unit, amount, labor rate and
dependency list of the item at every position are unchanged. -/
theorem claim_C8 (a : ProjectAnalyzer) (works : List ConstructionWork) (s : ℚ) :
    (a.create_gantt_chart works s).length = works.length ∧
    ∀ (i : Nat) (w : ConstructionWork), works[i]? = some w →
      ∃ w', (a.create_gantt_chart works s)[i]? = some w' ∧
        w'.name = w.name ∧ w'.unit = w.unit ∧ w'.amount = w.amount ∧
        w'.man_hours_per_unit = w.man_hours_per_unit ∧
        w'.dependencies = w.dependencies := by
  constructor
  · exact scheduleUpto_length a s works works.length
  · intro i w hw
    have h : ((a.create_gantt_chart works s)[i]?).map core =
        (works[i]?).map core := scheduleUpto_core a s works works.length i
    rw [hw] at h
    cases hf : (a.create_gantt_chart works s)[i]? with
    | none => rw [hf] at h; cases h
    | some w' =>
      rw [hf] at h
      have hcore : core w' = core w := by simpa using h
      exact ⟨w', rfl, fields_of_core_eq hcore⟩

/-- Claim C8 witness: the frame property at the Benches-only run. -/
theorem claim_C8_witness :
    ∃ w', (ProjectAnalyzer.create_gantt_chart ⟨2, 8⟩ [benches] 0)[0]? = some w' ∧
      w'.name = benches.name ∧ w'.unit = benches.unit ∧
      w'.amount = benches.amount ∧
      w'.man_hours_per_unit = benches.man_hours_per_unit ∧
      w'.dependencies = benches.dependencies :=
  (claim_C8 ⟨2, 8⟩ [benches] 0).2 0 benches rfl

/-- Claim C2: an item whose dependency names all refer to items appearing
later in input order, or to no item at all (no item at position ≤ its own
bears any of those names), silently falls back to the project start: it is
scheduled exactly like a dependency-free item. -/
theorem claim_C2 (a : ProjectAnalyzer) (works : List ConstructionWork)
    (s : ℚ) (j : Nat) (c : ConstructionWork)
    (hc : works[j]? = some c)
    (hinit : ∀ w ∈ works, w.end_date = none)
    (hdeps : ∀ m ∈ c.dependencies, ∀ w ∈ works.take (j + 1), w.name ≠ m) :
    (a.create_gantt_chart works s)[j]? =
      some { c with start_date := some s,
                    end_date := some (s + a.calculate_duration c) } := by
  have hlen : j < works.length := (List.getElem?_eq_some_iff.1 hc).1
  rw [create_gantt_chart_getElem? a works s hlen]
  have hc' : (scheduleUpto a s works j)[j]? = some c := by
    rw [scheduleUpto_getElem?_of_le a s works (le_refl j)]; exact hc
  rcases Classical.em (c.dependencies = []) with hd | hd
  · exact processItem_getElem?_self_nil a s hc' hd
  · rw [processItem_getElem?_self_deps a s hc' hd]
    have hlen2 : j < (scheduleUpto a s works j).length := by
      rw [scheduleUpto_length]; exact hlen
    have hmax : maxDepEnd
        ((scheduleUpto a s works j).set j
          { c with start_date := some s,
                   end_date := some (s + a.calculate_duration c) })
        c.dependencies s = s := by
      apply maxDepEnd_no_match c.dependencies s
      intro m hm x hx hname
      rcases List.mem_iff_getElem?.1 hx with ⟨k, hk⟩
      by_cases hkj : j = k
      · subst hkj
        rw [List.getElem?_set_self hlen2] at hk
        have hx2 : x = { c with start_date := some s,
                                end_date := some (s + a.calculate_duration c) } :=
          (Option.some.inj hk).symm
        have hcm : c.name = m := by rw [hx2] at hname; exact hname
        have hcmem : c ∈ works.take (j + 1) :=
          List.mem_iff_getElem?.2
            ⟨j, by rw [List.getElem?_take_of_lt (Nat.lt_succ_self j)]; exact hc⟩
        exact absurd hcm (hdeps m hm c hcmem)
      · rw [List.getElem?_set_ne hkj] at hk
        rcases scheduleUpto_core_of_getElem a s works j k hk with ⟨w0, hw0, hcore⟩
        have hnm : w0.name = m := by rw [← name_eq_of_core_eq hcore]; exact hname
        by_cases hk2 : k < j + 1
        · have hmem : w0 ∈ works.take (j + 1) :=
            List.mem_iff_getElem?.2
              ⟨k, by rw [List.getElem?_take_of_lt hk2]; exact hw0⟩
          exact absurd hnm (hdeps m hm w0 hmem)
        · have hjk : j ≤ k := Nat.le_of_succ_le (Nat.le_of_not_lt hk2)
          rw [scheduleUpto_getElem?_of_le a s works hjk] at hk
          exact hinit x (List.mem_iff_getElem?.2 ⟨k, hk⟩)
    rw [hmax]

/-- Claim C2 witness: the demo's Benches item, whose dependency "Подготовка
территории" names no item in the list, starts at the project start. -/
theorem claim_C2_witness :
    (ProjectAnalyzer.create_gantt_chart ⟨2, 8⟩ [benches] 0)[0]? =
      some { benches with
        start_date := some 0,
        end_date := some (0 + ProjectAnalyzer.calculate_duration ⟨2, 8⟩ benches) } :=
  claim_C2 ⟨2, 8⟩ [benches] 0 0 benches rfl (by decide) (by decide)

/-- Claim C3: when item B's dependency list is exactly the name of an item A
appearing earlier in input order, names unique in the run and A's duration
positive, B starts exactly at A's end and ends its own duration later. -/
theorem claim_C3 (a : ProjectAnalyzer) (works : List ConstructionWork) (s : ℚ)
    (i j : Nat) (ai b : ConstructionWork)
    (hij : i < j) (ha : works[i]? = some ai) (hb : works[j]? = some b)
    (hdeps : b.dependencies = [ai.name])
    (huniq : works.Pairwise (fun w1 w2 => w1.name ≠ w2.name))
    (hinit : ∀ w ∈ works, w.end_date = none)
    (hdur : 0 < a.calculate_duration ai) :
    ∃ a' ea, (a.create_gantt_chart works s)[i]? = some a' ∧
      a'.end_date = some ea ∧
      (a.create_gantt_chart works s)[j]? =
        some { b with start_date := some ea,
                      end_date := some (ea + a.calculate_duration b) } := by
  have hleni : i < works.length := (List.getElem?_eq_some_iff.1 ha).1
  have hlenj : j < works.length := (List.getElem?_eq_some_iff.1 hb).1
  have huniq' : ∀ (k1 k2 : Nat) (w1 w2 : ConstructionWork),
      works[k1]? = some w1 → works[k2]? = some w2 →
      w1.name = w2.name → k1 = k2 := by
    intro k1 k2 w1 w2 h1 h2 hname
    rcases List.getElem?_eq_some_iff.1 h1 with ⟨hl1, he1⟩
    rcases List.getElem?_eq_some_iff.1 h2 with ⟨hl2, he2⟩
    have hh : works[k1].name = works[k2].name := by rw [he1, he2]; exact hname
    rcases Nat.lt_trichotomy k1 k2 with h | h | h
    · exact absurd hh (List.pairwise_iff_getElem.1 huniq k1 k2 hl1 hl2 h)
    · exact h
    · exact absurd hh.symm (List.pairwise_iff_getElem.1 huniq k2 k1 hl2 hl1 h)
  have hai' : (scheduleUpto a s works i)[i]? = some ai := by
    rw [scheduleUpto_getElem?_of_le a s works (le_refl i)]; exact ha
  rcases processItem_start_end a s hai' with ⟨st, hst, hstepA⟩
  refine ⟨{ ai with start_date := some st, end_date := some (st + a.calculate_duration ai) }, st + a.calculate_duration ai, ?_, rfl, ?_⟩
  · rw [create_gantt_chart_getElem? a works s hleni]
    exact hstepA
  · have hstateA : (scheduleUpto a s works j)[i]? =
        some { ai with start_date := some st,
                       end_date := some (st + a.calculate_duration ai) } := by
      rw [scheduleUpto_getElem?_stable a s works hij, scheduleUpto_succ]
      exact hstepA
    have hb' : (scheduleUpto a s works j)[j]? = some b := by
      rw [scheduleUpto_getElem?_of_le a s works (le_refl j)]; exact hb
    have hdne : b.dependencies ≠ [] := by
      rw [hdeps]; exact List.cons_ne_nil _ _
    rw [create_gantt_chart_getElem? a works s hlenj,
      processItem_getElem?_self_deps a s hb' hdne]
    have hlen2 : j < (scheduleUpto a s works j).length := by
      rw [scheduleUpto_length]; exact hlenj
    have hmax : maxDepEnd
        ((scheduleUpto a s works j).set j
          { b with start_date := some s,
                   end_date := some (s + a.calculate_duration b) })
        b.dependencies s = st + a.calculate_duration ai := by
      rw [hdeps]
      refine maxDepEnd_single (n := ai.name)
        (e := st + a.calculate_duration ai) [ai.name] s ?_
        (List.mem_singleton.2 rfl) ?_
        (le_trans hst (le_add_of_nonneg_right (le_of_lt hdur)))
      · intro m hm x hx hname
        have hmn : m = ai.name := List.mem_singleton.1 hm
        subst hmn
        rcases List.mem_iff_getElem?.1 hx with ⟨k, hk⟩
        by_cases hkj : j = k
        · subst hkj
          rw [List.getElem?_set_self hlen2] at hk
          have hx2 := (Option.some.inj hk).symm
          have hbn : b.name = ai.name := by rw [hx2] at hname; exact hname
          exact absurd (huniq' j i b ai hb ha hbn) (Nat.ne_of_gt hij)
        · rw [List.getElem?_set_ne hkj] at hk
          rcases scheduleUpto_core_of_getElem a s works j k hk with ⟨w0, hw0, hcore⟩
          have hw0n : w0.name = ai.name := by
            rw [← name_eq_of_core_eq hcore]; exact hname
          have hki : i = k := (huniq' k i w0 ai hw0 ha hw0n).symm
          subst hki
          rw [hstateA] at hk
          have hx2 : x = { ai with start_date := some st,
                                   end_date := some (st + a.calculate_duration ai) } :=
            (Option.some.inj hk).symm
          exact Or.inr ⟨rfl, by rw [hx2]⟩
      · refine ⟨{ ai with start_date := some st, end_date := some (st + a.calculate_duration ai) }, List.mem_iff_getElem?.2 ⟨i, ?_⟩, rfl, rfl⟩
        rw [List.getElem?_set_ne (Nat.ne_of_gt hij)]
        exact hstateA
    rw [hmax]

/-- Claim C3 witness: Benches scheduled after the site-preparation item it
depends on starts exactly at that item's end. -/
theorem claim_C3_witness :
    ∃ a' ea,
      (ProjectAnalyzer.create_gantt_chart ⟨2, 8⟩ [site_prep, benches] 0)[0]? =
        some a' ∧
      a'.end_date = some ea ∧
      (ProjectAnalyzer.create_gantt_chart ⟨2, 8⟩ [site_prep, benches] 0)[1]? =
        some { benches with
          start_date := some ea,
          end_date := some (ea + ProjectAnalyzer.calculate_duration ⟨2, 8⟩ benches) } :=
  claim_C3 ⟨2, 8⟩ [site_prep, benches] 0 0 1 site_prep benches (by decide)
    rfl rfl rfl (by decide) (by decide) (by decide)

/-- Claim C10: an item listing its own name among its dependencies sees its
own tentative end date in the scan (set before the scan runs): with
non-negative duration d and no other resolvable dependency it is scheduled
from project start + d to project start + 2·d. -/
theorem claim_C10 (a : ProjectAnalyzer) (works : List ConstructionWork) (s : ℚ)
    (j : Nat) (w : ConstructionWork)
    (hw : works[j]? = some w)
    (hself : w.name ∈ w.dependencies)
    (hinit : ∀ x ∈ works, x.end_date = none)
    (hdeps : ∀ m ∈ w.dependencies, ∀ x ∈ works.take j, x.name ≠ m)
    (hd : 0 ≤ a.calculate_duration w) :
    (a.create_gantt_chart works s)[j]? =
      some { w with start_date := some (s + a.calculate_duration w),
                    end_date := some (s + 2 * a.calculate_duration w) } := by
  have hlen : j < works.length := (List.getElem?_eq_some_iff.1 hw).1
  have hw' : (scheduleUpto a s works j)[j]? = some w := by
    rw [scheduleUpto_getElem?_of_le a s works (le_refl j)]; exact hw
  have hdne : w.dependencies ≠ [] := List.ne_nil_of_mem hself
  rw [create_gantt_chart_getElem? a works s hlen,
    processItem_getElem?_self_deps a s hw' hdne]
  have hlen2 : j < (scheduleUpto a s works j).length := by
    rw [scheduleUpto_length]; exact hlen
  have hmax : maxDepEnd
      ((scheduleUpto a s works j).set j
        { w with start_date := some s,
                 end_date := some (s + a.calculate_duration w) })
      w.dependencies s = s + a.calculate_duration w := by
    refine maxDepEnd_single (n := w.name) (e := s + a.calculate_duration w)
      w.dependencies s ?_ hself ?_ (le_add_of_nonneg_right hd)
    · intro m hm x hx hname
      rcases List.mem_iff_getElem?.1 hx with ⟨k, hk⟩
      by_cases hkj : j = k
      · subst hkj
        rw [List.getElem?_set_self hlen2] at hk
        have hx2 : x = { w with start_date := some s,
                                end_date := some (s + a.calculate_duration w) } :=
          (Option.some.inj hk).symm
        refine Or.inr ⟨?_, by rw [hx2]⟩
        rw [hx2] at hname
        exact hname.symm
      · rw [List.getElem?_set_ne hkj] at hk
        rcases scheduleUpto_core_of_getElem a s works j k hk with ⟨w0, hw0, hcore⟩
        have hw0n : w0.name = m := by
          rw [← name_eq_of_core_eq hcore]; exact hname
        by_cases hk2 : k < j
        · have hmem : w0 ∈ works.take j :=
            List.mem_iff_getElem?.2
              ⟨k, by rw [List.getElem?_take_of_lt hk2]; exact hw0⟩
          exact absurd hw0n (hdeps m hm w0 hmem)
        · have hjk : j ≤ k := Nat.le_of_not_lt hk2
          rw [scheduleUpto_getElem?_of_le a s works hjk] at hk
          exact Or.inl (hinit x (List.mem_iff_getElem?.2 ⟨k, hk⟩))
    · exact ⟨{ w with start_date := some s, end_date := some (s + a.calculate_duration w) }, List.mem_iff_getElem?.2 ⟨j, List.getElem?_set_self hlen2⟩, rfl, rfl⟩
  rw [hmax, show s + a.calculate_duration w + a.calculate_duration w
      = s + 2 * a.calculate_duration w from by ring]

/-- Claim C10 witness: a lighting item depending on itself is pushed to
start one duration after the project start. -/
theorem claim_C10_witness :
    (ProjectAnalyzer.create_gantt_chart ⟨2, 8⟩ [lighting_loop] 0)[0]? =
      some { lighting_loop with
        start_date :=
          some (0 + ProjectAnalyzer.calculate_duration ⟨2, 8⟩ lighting_loop),
        end_date :=
          some (0 + 2 * ProjectAnalyzer.calculate_duration ⟨2, 8⟩ lighting_loop) } :=
  claim_C10 ⟨2, 8⟩ [lighting_loop] 0 0 lighting_loop rfl (by decide)
    (by decide) (by decide) (by decide)

end
